import Mathlib

/-!
Verification of the mqtt-verify scenario engine against its specification.

The Rust sources are shallowly embedded: pure functions become Lean
functions, stateful methods become explicit state passing, and fallible
code returns `Except` / explicit result types.  Machine integers are
modelled as `Nat`; Rust `String` is modelled as Lean `String` (or
`List Char` where the code slices byte ranges).  The external expression
engine (the `evalexpr` crate) is not part of the repository; the parts of
it the templates exercise are modelled from the spec, and are clearly
marked below.
-/

/-- Error taxonomy from src/src/errors.rs.  Underlying causes carried by
the MQTT-client errors are opaque to the core and are dropped here. -/
inductive MqttVerifyError : Type where
  | malformedParameter (input : String)
  | sourceTimerError
  | mqttConnectError
  | mqttDisconnectError
  | mqttPublishError
  | mqttSubscribeError
  | malformedValue (value : String)
  | malformedExpression (value : String)
  | verificationFailure (reason : String)
deriving DecidableEq

/-- An MQTT message as constructed by `mqtt::Message::new(topic, payload, qos)`.
`payload` is the payload string (`payload_str` in the Rust code). -/
structure MqttMessage : Type where
  topic : String
  payload : String
  qos : Nat
deriving DecidableEq

/-- Verdict type of src/src/analyzers.rs (`State`). -/
inductive AnalyzerState : Type where
  | Continue
  | Done
deriving DecidableEq

/-! ## Verifiable source (src/src/source.rs) -/

/-- `VerifiableSource` from src/src/source.rs.  The `topic` field holds the
evaluated topic string (in the source it is a `ContextualValue` whose
context is immutable during iteration, so `topic.value()` is constant).
`frequency` only drives the tick period of the emission timer and never
affects message contents. -/
structure VerifiableSource : Type where
  id : String
  topic : String
  seq_no : Nat
  total_count : Nat
  frequency : Rat
deriving DecidableEq

/-- `VerifiableSource::new`: starts with `seq_no = 0`. -/
def VerifiableSource.new (id : String) (topic : String) (total_count : Nat)
    (frequency : Rat) : VerifiableSource :=
  { id := id, topic := topic, seq_no := 0, total_count := total_count,
    frequency := frequency }

/-- `VerifiableSource::next_message`: returns `None` once `seq_no` has
reached `total_count`; otherwise increments `seq_no` and emits a QoS-0
message with payload `"<id>:<seq_no>/<total_count>"`.  The `Cell` mutation
is modelled by returning the updated source alongside the message. -/
def VerifiableSource.next_message (s : VerifiableSource) :
    Option (MqttMessage × VerifiableSource) :=
  if s.total_count ≤ s.seq_no then
    none
  else
    let s2 : VerifiableSource := { s with seq_no := s.seq_no + 1 }
    some ({ topic := s.topic,
            payload := s.id ++ ":" ++ toString s2.seq_no ++ "/" ++ toString s.total_count,
            qos := 0 }, s2)

/-- `VerifiableSource::messages`: the ticker stream maps `next_message`
over ticks and ends at the first `None`, so the produced sequence is the
unfolding of `next_message`. -/
def VerifiableSource.messages (s : VerifiableSource) : List MqttMessage :=
  match h : s.next_message with
  | none => []
  | some (m, s2) => m :: s2.messages
termination_by s.total_count - s.seq_no
decreasing_by
  simp only [VerifiableSource.next_message] at h
  split at h
  · exact absurd h (by simp)
  · rename_i hc
    simp only [Option.some.injEq, Prod.mk.injEq] at h
    obtain ⟨-, h2⟩ := h
    subst h2
    dsimp only
    omega

/-- The successive states traversed while draining the source (the value
of the `seq_no` cell after each emission); mirrors
`VerifiableSource.messages`. -/
def VerifiableSource.trace (s : VerifiableSource) : List VerifiableSource :=
  match h : s.next_message with
  | none => []
  | some (_, s2) => s2 :: s2.trace
termination_by s.total_count - s.seq_no
decreasing_by
  simp only [VerifiableSource.next_message] at h
  split at h
  · exact absurd h (by simp)
  · rename_i hc
    simp only [Option.some.injEq, Prod.mk.injEq] at h
    obtain ⟨-, h2⟩ := h
    subst h2
    dsimp only
    omega

/-! ## Analyzers (src/src/analyzers.rs) -/

/-- `CountingAnalyzer` state. -/
structure CountingAnalyzer : Type where
  count : Nat
  expected_total : Nat
deriving DecidableEq

/-- `CountingAnalyzer::new(total_count)`. -/
def CountingAnalyzer.new (total_count : Nat) : CountingAnalyzer :=
  { count := 0, expected_total := total_count }

/-- `CountingAnalyzer::analyze`: increments `count`, then compares it with
`expected_total` (`Ordering::Greater/Equal/Less`). -/
def CountingAnalyzer.analyze (a : CountingAnalyzer) (_m : MqttMessage) :
    CountingAnalyzer × Except MqttVerifyError AnalyzerState :=
  let a2 : CountingAnalyzer := { a with count := a.count + 1 }
  match compare a2.count a.expected_total with
  | Ordering.gt =>
      (a2, Except.error (MqttVerifyError.verificationFailure
        ("Expected only " ++ toString a.expected_total ++ " messages")))
  | Ordering.eq => (a2, Except.ok AnalyzerState.Done)
  | Ordering.lt => (a2, Except.ok AnalyzerState.Continue)

/-- Results of feeding a whole message list to a `CountingAnalyzer`, one
`analyze` call per message, threading the mutable state. -/
def CountingAnalyzer.runResults (a : CountingAnalyzer) :
    List MqttMessage → List (Except MqttVerifyError AnalyzerState)
  | [] => []
  | m :: rest =>
      let r := a.analyze m
      r.2 :: r.1.runResults rest

/-- Rust's `str::starts_with(&str)`: a byte-wise prefix test, modelled on
the character list underlying the payload string. -/
def strStartsWith (s p : String) : Bool :=
  p.data.isPrefixOf s.data

/-- `SessionIdFilter` over an abstract stateful child analyzer: the child
is a state-passing function, matching the boxed `dyn Analyzer` field. -/
structure SessionIdFilter (σ : Type) : Type where
  id : String
  child : σ → MqttMessage → σ × Except MqttVerifyError AnalyzerState

/-- `SessionIdFilter::new`: appends `':'` to the session id before storing it. -/
def SessionIdFilter.new {σ : Type} (id : String)
    (child : σ → MqttMessage → σ × Except MqttVerifyError AnalyzerState) :
    SessionIdFilter σ :=
  { id := id ++ ":", child := child }

/-- `SessionIdFilter::analyze`: forwards to the child iff the payload
starts with the stored prefix, else `Continue` (child state untouched). -/
def SessionIdFilter.analyze {σ : Type} (f : SessionIdFilter σ) (s : σ)
    (m : MqttMessage) : σ × Except MqttVerifyError AnalyzerState :=
  if strStartsWith m.payload f.id then
    f.child s m
  else
    (s, Except.ok AnalyzerState.Continue)

/-! ## Unfolding and closed-form lemmas for the source -/

theorem VerifiableSource.next_message_of_ge (s : VerifiableSource)
    (h : s.total_count ≤ s.seq_no) : s.next_message = none := by
  simp only [VerifiableSource.next_message]
  rw [if_pos h]

theorem VerifiableSource.next_message_of_lt (s : VerifiableSource)
    (h : s.seq_no < s.total_count) :
    s.next_message = some
      ({ topic := s.topic,
         payload := s.id ++ ":" ++ toString (s.seq_no + 1) ++ "/" ++ toString s.total_count,
         qos := 0 }, { s with seq_no := s.seq_no + 1 }) := by
  simp only [VerifiableSource.next_message]
  rw [if_neg (by omega)]

theorem VerifiableSource.messages_of_none (s : VerifiableSource)
    (h : s.next_message = none) : s.messages = [] := by
  rw [VerifiableSource.messages]
  split
  · rfl
  · rename_i m s2 heq
    rw [h] at heq
    exact absurd heq (by simp)

theorem VerifiableSource.messages_of_some (s : VerifiableSource)
    (m : MqttMessage) (s2 : VerifiableSource) (h : s.next_message = some (m, s2)) :
    s.messages = m :: s2.messages := by
  rw [VerifiableSource.messages]
  split
  · rename_i heq
    rw [h] at heq
    exact absurd heq (by simp)
  · rename_i m' s2' heq
    rw [h] at heq
    simp only [Option.some.injEq, Prod.mk.injEq] at heq
    rw [heq.1, heq.2]

theorem VerifiableSource.trace_of_none (s : VerifiableSource)
    (h : s.next_message = none) : s.trace = [] := by
  rw [VerifiableSource.trace]
  split
  · rfl
  · rename_i m s2 heq
    rw [h] at heq
    exact absurd heq (by simp)

theorem VerifiableSource.trace_of_some (s : VerifiableSource)
    (m : MqttMessage) (s2 : VerifiableSource) (h : s.next_message = some (m, s2)) :
    s.trace = s2 :: s2.trace := by
  rw [VerifiableSource.trace]
  split
  · rename_i heq
    rw [h] at heq
    exact absurd heq (by simp)
  · rename_i m' s2' heq
    rw [h] at heq
    simp only [Option.some.injEq, Prod.mk.injEq] at heq
    rw [heq.2]

/-- Closed form of the emitted sequence: payloads carry the sequence
numbers `seq_no + 1, …, total_count` in order. -/
theorem VerifiableSource.messages_closed (s : VerifiableSource) :
    s.messages = (List.range' (s.seq_no + 1) (s.total_count - s.seq_no)).map
      (fun k => ({ topic := s.topic,
                   payload := s.id ++ ":" ++ toString k ++ "/" ++ toString s.total_count,
                   qos := 0 } : MqttMessage)) := by
  generalize hn : s.total_count - s.seq_no = n
  induction n generalizing s with
  | zero =>
      rw [VerifiableSource.messages_of_none s (s.next_message_of_ge (by omega))]
      simp
  | succ n ih =>
      have hlt : s.seq_no < s.total_count := by omega
      rw [VerifiableSource.messages_of_some s _ _ (s.next_message_of_lt hlt)]
      rw [ih { s with seq_no := s.seq_no + 1 } (by dsimp only; omega)]
      rw [List.range'_succ]
      rw [List.map_cons]

/-- Closed form of the state trace: the `seq_no` values after each
emission are `seq_no + 1, …, total_count` in order. -/
theorem VerifiableSource.trace_closed (s : VerifiableSource) :
    s.trace = (List.range' (s.seq_no + 1) (s.total_count - s.seq_no)).map
      (fun j => { s with seq_no := j }) := by
  generalize hn : s.total_count - s.seq_no = n
  induction n generalizing s with
  | zero =>
      rw [VerifiableSource.trace_of_none s (s.next_message_of_ge (by omega))]
      simp
  | succ n ih =>
      have hlt : s.seq_no < s.total_count := by omega
      rw [VerifiableSource.trace_of_some s _ _ (s.next_message_of_lt hlt)]
      rw [ih { s with seq_no := s.seq_no + 1 } (by dsimp only; omega)]
      rw [List.range'_succ]
      rw [List.map_cons]

/-- The closed form instantiated at a freshly constructed source. -/
theorem VerifiableSource.new_messages_closed (id topic : String) (total : Nat)
    (freq : Rat) :
    (VerifiableSource.new id topic total freq).messages =
      (List.range' 1 total).map
        (fun k => ({ topic := topic,
                     payload := id ++ ":" ++ toString k ++ "/" ++ toString total,
                     qos := 0 } : MqttMessage)) := by
  rw [VerifiableSource.messages_closed]
  simp [VerifiableSource.new]

/-- The trace closed form instantiated at a freshly constructed source. -/
theorem VerifiableSource.new_trace_closed (id topic : String) (total : Nat)
    (freq : Rat) :
    (VerifiableSource.new id topic total freq).trace =
      (List.range' 1 total).map
        (fun j => ({ id := id, topic := topic, seq_no := j, total_count := total,
                     frequency := freq } : VerifiableSource)) := by
  rw [VerifiableSource.trace_closed]
  simp [VerifiableSource.new]

/-- C1: a `VerifiableSource` with session id `id`, `total_count = total`
and positive frequency yields exactly `total` messages; the k-th message
(1 ≤ k ≤ total) has payload exactly `"<id>:<k>/<total>"`; along the run
`seq_no` is strictly increasing and never exceeds `total_count`. -/
theorem claim_c1_verifiable_source (id topic : String) (total : Nat) (freq : Rat)
    (hfreq : 0 < freq) :
    ((VerifiableSource.new id topic total freq).messages.length = total)
    ∧ (∀ k, 1 ≤ k → k ≤ total →
        (VerifiableSource.new id topic total freq).messages[k - 1]? =
          some { topic := topic,
                 payload := id ++ ":" ++ toString k ++ "/" ++ toString total,
                 qos := 0 })
    ∧ (((VerifiableSource.new id topic total freq).trace.map
          VerifiableSource.seq_no).Pairwise (fun a b => a < b))
    ∧ (∀ s2 ∈ (VerifiableSource.new id topic total freq).trace,
          s2.seq_no ≤ s2.total_count) := by
  refine ⟨?_, ?_, ?_, ?_⟩
  · rw [VerifiableSource.new_messages_closed]
    simp
  · intro k hk1 hk2
    rw [VerifiableSource.new_messages_closed]
    rw [List.getElem?_map]
    rw [List.getElem?_range' _ _ (by omega : k - 1 < total)]
    have hk : 1 + 1 * (k - 1) = k := by omega
    rw [hk]
    rfl
  · rw [VerifiableSource.new_trace_closed]
    rw [List.map_map]
    have hfun : (VerifiableSource.seq_no ∘ fun j =>
        ({ id := id, topic := topic, seq_no := j, total_count := total,
           frequency := freq } : VerifiableSource)) = fun j => j := by
      funext j
      rfl
    rw [hfun]
    simpa using List.pairwise_lt_range' 1 total 1 (by omega)
  · intro s2 hs2
    rw [VerifiableSource.new_trace_closed] at hs2
    simp only [List.mem_map, List.mem_range'_1] at hs2
    obtain ⟨j, ⟨hj1, hj2⟩, rfl⟩ := hs2
    dsimp only
    omega

/-- C1 witness: the source `("s", total 2)` concretely yields two messages
and the second has payload `"s:2/2"`. -/
theorem claim_c1_verifiable_source_witness :
    ((VerifiableSource.new "s" "t" 2 1).messages.length = 2)
    ∧ ((VerifiableSource.new "s" "t" 2 1).messages[1]? =
        some { topic := "t", payload := "s:2/2", qos := 0 }) :=
  ⟨(claim_c1_verifiable_source "s" "t" 2 1 (by norm_num)).1,
   (claim_c1_verifiable_source "s" "t" 2 1 (by norm_num)).2.1 2
     (by norm_num) (by norm_num)⟩

/-! ## C2: counting analyzer verdicts -/

/-- The verdict `CountingAnalyzer::analyze` derives from an incremented
count `c` and the expected total `N` (the body of its `match`). -/
def countingVerdict (c N : Nat) : Except MqttVerifyError AnalyzerState :=
  match compare c N with
  | Ordering.gt => Except.error (MqttVerifyError.verificationFailure
      ("Expected only " ++ toString N ++ " messages"))
  | Ordering.eq => Except.ok AnalyzerState.Done
  | Ordering.lt => Except.ok AnalyzerState.Continue

theorem CountingAnalyzer.analyze_eq (a : CountingAnalyzer) (m : MqttMessage) :
    a.analyze m = ({ a with count := a.count + 1 },
      countingVerdict (a.count + 1) a.expected_total) := by
  cases h : compare (a.count + 1) a.expected_total <;>
    simp [CountingAnalyzer.analyze, countingVerdict, h]

/-- The j-th (0-based) result of a run of `analyze` calls depends only on
the running count: the state after `j` calls counts `a.count + j`. -/
theorem CountingAnalyzer.runResults_getElem? :
    ∀ (msgs : List MqttMessage) (a : CountingAnalyzer) (j : Nat), j < msgs.length →
      (a.runResults msgs)[j]? = some (countingVerdict (a.count + j + 1) a.expected_total)
  | [], _, j, hj => absurd hj (by simp)
  | m :: rest, a, 0, _ => by
      simp [CountingAnalyzer.runResults, CountingAnalyzer.analyze_eq]
  | m :: rest, a, j + 1, hj => by
      have ih := CountingAnalyzer.runResults_getElem? rest
        { a with count := a.count + 1 } j (by simpa using Nat.lt_of_succ_lt_succ hj)
      simp only [CountingAnalyzer.runResults, CountingAnalyzer.analyze_eq]
      rw [List.getElem?_cons_succ]
      rw [ih]
      have : a.count + 1 + j + 1 = a.count + (j + 1) + 1 := by omega
      rw [this]

/-- C2: feeding a `CountingAnalyzer(N)` a stream of at least `N + 1`
messages, the k-th call returns `Continue` for `k < N`, `Done` for
`k = N`, and the `VerificationFailure` with reason exactly
`"Expected only N messages"` for `k > N`. -/
theorem claim_c2_counting_analyzer (N : Nat) (msgs : List MqttMessage) (k : Nat)
    (hlen : N + 1 ≤ msgs.length) (hk1 : 1 ≤ k) (hk2 : k ≤ msgs.length) :
    ((CountingAnalyzer.new N).runResults msgs)[k - 1]? =
      some (if k < N then Except.ok AnalyzerState.Continue
            else if k = N then Except.ok AnalyzerState.Done
            else Except.error (MqttVerifyError.verificationFailure
              ("Expected only " ++ toString N ++ " messages"))) := by
  have h := CountingAnalyzer.runResults_getElem? msgs (CountingAnalyzer.new N)
    (k - 1) (by omega)
  simp only [CountingAnalyzer.new] at h ⊢
  have hc : 0 + (k - 1) + 1 = k := by omega
  rw [hc] at h
  rw [h]
  rcases Nat.lt_trichotomy k N with hlt | heq | hgt
  · rw [countingVerdict, Nat.compare_eq_lt.mpr hlt]
    rw [if_pos hlt]
  · rw [countingVerdict, Nat.compare_eq_eq.mpr heq]
    rw [if_neg (by omega), if_pos heq]
  · rw [countingVerdict, Nat.compare_eq_gt.mpr hgt]
    rw [if_neg (by omega), if_neg (by omega)]

/-- C2 witness: a `CountingAnalyzer(1)` fed two messages fails the second
call with reason `"Expected only 1 messages"`. -/
theorem claim_c2_counting_analyzer_witness :
    ((CountingAnalyzer.new 1).runResults
        [{ topic := "t", payload := "x", qos := 0 },
         { topic := "t", payload := "x", qos := 0 }])[1]? =
      some (Except.error (MqttVerifyError.verificationFailure
        "Expected only 1 messages")) :=
  claim_c2_counting_analyzer 1
    [{ topic := "t", payload := "x", qos := 0 },
     { topic := "t", payload := "x", qos := 0 }] 2
    (by norm_num) (by norm_num) (by norm_num)

/-! ## C3: session id filter -/

/-- C3: a `SessionIdFilter(id, child)` behaves as `child` exactly on the
messages whose payload starts with `id ++ ":"` and returns `Continue`
leaving the child untouched otherwise; when the child's answer is
distinguishable from `(s, Continue)`, forwarding happens if and only if
the payload has the colon-terminated prefix. -/
theorem claim_c3_session_id_filter {σ : Type} (id : String)
    (child : σ → MqttMessage → σ × Except MqttVerifyError AnalyzerState)
    (s : σ) (m : MqttMessage) :
    (strStartsWith m.payload (id ++ ":") = true →
        (SessionIdFilter.new id child).analyze s m = child s m)
    ∧ (strStartsWith m.payload (id ++ ":") = false →
        (SessionIdFilter.new id child).analyze s m =
          (s, Except.ok AnalyzerState.Continue))
    ∧ (child s m ≠ (s, Except.ok AnalyzerState.Continue) →
        ((SessionIdFilter.new id child).analyze s m = child s m ↔
          strStartsWith m.payload (id ++ ":") = true)) := by
  refine ⟨?_, ?_, ?_⟩
  · intro h
    simp [SessionIdFilter.analyze, SessionIdFilter.new, h]
  · intro h
    simp [SessionIdFilter.analyze, SessionIdFilter.new, h]
  · intro hne
    cases h : strStartsWith m.payload (id ++ ":") with
    | true => simp [SessionIdFilter.analyze, SessionIdFilter.new, h]
    | false =>
        simp only [SessionIdFilter.analyze, SessionIdFilter.new, h,
          Bool.false_eq_true, if_false]
        constructor
        · intro heq
          exact absurd heq.symm hne
        · intro heq
          exact absurd heq (by simp)

/-- C3 witness: with a child that always answers `Done` (the tests'
`DoneAnalyzer`), id `"foo"` forwards payload `"foo:1/2"` but not payload
`"foobar:gazonk"` (prefix without the colon). -/
theorem claim_c3_session_id_filter_witness :
    ((SessionIdFilter.new "foo"
        (fun (s : Unit) (_ : MqttMessage) => (s, Except.ok AnalyzerState.Done))).analyze ()
        { topic := "t", payload := "foo:1/2", qos := 0 } =
      ((), Except.ok AnalyzerState.Done))
    ∧ ((SessionIdFilter.new "foo"
        (fun (s : Unit) (_ : MqttMessage) => (s, Except.ok AnalyzerState.Done))).analyze ()
        { topic := "t", payload := "foobar:gazonk", qos := 0 } =
      ((), Except.ok AnalyzerState.Continue)) :=
  ⟨(claim_c3_session_id_filter "foo" _ () _).1 (by decide),
   (claim_c3_session_id_filter "foo" _ () _).2.1 (by decide)⟩

/-! ## Broker connection (src/src/lib.rs, `connect`) -/

/-- Connection options as assembled by `connect` (src/src/lib.rs:56-62);
durations in milliseconds.  `automatic_reconnect` holds the `(min, max)`
backoff pair when reconnection is enabled. -/
structure ConnOpts : Type where
  clean_session : Bool
  connect_timeout : Nat
  automatic_reconnect : Option (Nat × Nat)
deriving DecidableEq

/-- The options `connect` builds: `interval = min(timeout, 1s)` and
`automatic_reconnect(interval, interval)` is applied unconditionally. -/
def connectOptions (timeout : Nat) : ConnOpts :=
  let max_interval := 1000
  let interval := min timeout max_interval
  { clean_session := true,
    connect_timeout := interval,
    automatic_reconnect := some (interval, interval) }

/-- One observed iteration of the `connect` retry loop: either the attempt
succeeded, or it failed with `Instant::now()` reading `now` at the check. -/
inductive ConnectAttempt : Type where
  | ok
  | err (now : Nat)
deriving DecidableEq

/-- The retry loop of `connect` (src/src/lib.rs:64-71) over a trace of
attempt outcomes: success returns `Ok(())`; a failure with `now` strictly
before the deadline continues the loop; a failure at or past the deadline
returns `MqttConnectError`.  `none` means the trace ended with the loop
still retrying. -/
def connectLoop (deadline : Nat) :
    List ConnectAttempt → Option (Except MqttVerifyError Unit)
  | [] => none
  | ConnectAttempt.ok :: _ => some (Except.ok ())
  | ConnectAttempt.err now :: rest =>
      if now < deadline then connectLoop deadline rest
      else some (Except.error MqttVerifyError.mqttConnectError)

/-- C5: the connect loop returns `Ok` exactly when an attempt succeeds
after only pre-deadline failures, and returns `MqttConnectError` exactly
when an attempt fails at `now ≥ deadline` after only pre-deadline
failures — never from a failure strictly before the deadline. -/
theorem claim_c5_connect_retry (deadline : Nat) (attempts : List ConnectAttempt) :
    (connectLoop deadline attempts = some (Except.ok ()) ↔
      ∃ pre rest, attempts = pre ++ ConnectAttempt.ok :: rest ∧
        ∀ a ∈ pre, ∃ now, a = ConnectAttempt.err now ∧ now < deadline)
    ∧ (connectLoop deadline attempts =
        some (Except.error MqttVerifyError.mqttConnectError) ↔
      ∃ pre now rest, attempts = pre ++ ConnectAttempt.err now :: rest ∧
        deadline ≤ now ∧
        ∀ a ∈ pre, ∃ now2, a = ConnectAttempt.err now2 ∧ now2 < deadline) := by
  induction attempts with
  | nil =>
      constructor
      · simp [connectLoop]
      · simp [connectLoop]
  | cons a rest ih =>
      cases a with
      | ok =>
          constructor
          · simp only [connectLoop]
            constructor
            · intro _
              exact ⟨[], rest, rfl, by simp⟩
            · intro _
              trivial
          · simp only [connectLoop]
            constructor
            · intro h
              exact absurd h (by simp)
            · rintro ⟨pre, now, rest2, heq, hge, hpre⟩
              cases pre with
              | nil => exact absurd heq (by simp)
              | cons b pre2 =>
                  have hb := hpre b (by simp)
                  obtain ⟨now2, hb2, -⟩ := hb
                  have : b = ConnectAttempt.ok := by
                    have := congrArg (fun l => l.head?) heq
                    simpa using this.symm
                  rw [this] at hb2
                  exact absurd hb2 (by simp)
      | err now =>
          by_cases hnow : now < deadline
          · have heval : connectLoop deadline (ConnectAttempt.err now :: rest) =
                connectLoop deadline rest := by
              simp [connectLoop, hnow]
            rw [heval]
            constructor
            · rw [ih.1]
              constructor
              · rintro ⟨pre, rest2, heq, hpre⟩
                refine ⟨ConnectAttempt.err now :: pre, rest2, by rw [heq]; rfl, ?_⟩
                intro a ha
                rcases List.mem_cons.mp ha with h1 | h2
                · exact ⟨now, h1, hnow⟩
                · exact hpre a h2
              · rintro ⟨pre, rest2, heq, hpre⟩
                cases pre with
                | nil =>
                    have : ConnectAttempt.err now = ConnectAttempt.ok := by
                      have := congrArg (fun l => l.head?) heq
                      simpa using this
                    exact absurd this (by simp)
                | cons b pre2 =>
                    have hb : b = ConnectAttempt.err now := by
                      have := congrArg (fun l => l.head?) heq
                      simpa using this.symm
                    have htl : rest = pre2 ++ ConnectAttempt.ok :: rest2 := by
                      have := congrArg (fun l => l.tail) heq
                      simpa using this
                    exact ⟨pre2, rest2, htl, fun a ha => hpre a (by simp [ha])⟩
            · rw [ih.2]
              constructor
              · rintro ⟨pre, now3, rest2, heq, hge, hpre⟩
                refine ⟨ConnectAttempt.err now :: pre, now3, rest2, by rw [heq]; rfl,
                  hge, ?_⟩
                intro a ha
                rcases List.mem_cons.mp ha with h1 | h2
                · exact ⟨now, h1, hnow⟩
                · exact hpre a h2
              · rintro ⟨pre, now3, rest2, heq, hge, hpre⟩
                cases pre with
                | nil =>
                    have : ConnectAttempt.err now = ConnectAttempt.err now3 := by
                      have := congrArg (fun l => l.head?) heq
                      simpa using this
                    have : now = now3 := by
                      cases this
                      rfl
                    omega
                | cons b pre2 =>
                    have htl : rest = pre2 ++ ConnectAttempt.err now3 :: rest2 := by
                      have := congrArg (fun l => l.tail) heq
                      simpa using this
                    exact ⟨pre2, now3, rest2, htl, hge,
                      fun a ha => hpre a (by simp [ha])⟩
          · have heval : connectLoop deadline (ConnectAttempt.err now :: rest) =
                some (Except.error MqttVerifyError.mqttConnectError) := by
              simp [connectLoop, hnow]
            rw [heval]
            constructor
            · constructor
              · intro h
                exact absurd h (by simp)
              · rintro ⟨pre, rest2, heq, hpre⟩
                cases pre with
                | nil =>
                    have : ConnectAttempt.err now = ConnectAttempt.ok := by
                      have := congrArg (fun l => l.head?) heq
                      simpa using this
                    exact absurd this (by simp)
                | cons b pre2 =>
                    have hb : b = ConnectAttempt.err now := by
                      have := congrArg (fun l => l.head?) heq
                      simpa using this.symm
                    obtain ⟨now2, hb2, hlt⟩ := hpre b (by simp)
                    rw [hb] at hb2
                    cases hb2
                    omega
            · constructor
              · intro _
                exact ⟨[], now, rest, rfl, by omega, by simp⟩
              · intro _
                trivial

/-- C5 witness: with deadline 10, a failure observed at time 3 is retried
and the following success yields `Ok`. -/
theorem claim_c5_connect_retry_witness :
    connectLoop 10 [ConnectAttempt.err 3, ConnectAttempt.ok] =
      some (Except.ok ()) := by
  refine (claim_c5_connect_retry 10 _).1.mpr
    ⟨[ConnectAttempt.err 3], [], rfl, ?_⟩
  intro a ha
  simp only [List.mem_singleton] at ha
  subst ha
  exact ⟨3, rfl, by norm_num⟩

/-- C6 exhibit: the options built by `connect` enable automatic
reconnection unconditionally, with min and max backoff both equal to
`min(connect_timeout, 1s)` — no `reconnect_interval` exists anywhere in
the `src/` code to switch it off or to set the backoff. -/
theorem claim_c6_reconnect_always_enabled (timeout : Nat) :
    (connectOptions timeout).automatic_reconnect =
      some (min timeout 1000, min timeout 1000)
    ∧ (connectOptions timeout).clean_session = true :=
  ⟨rfl, rfl⟩

/-! ## Publisher runner (src/src/lib.rs, `run_publisher`) -/

/-- Opaque error surfaced by the broker client on a failed publish. -/
structure PahoError : Type where
  code : Int
deriving DecidableEq

/-- The publish pump of `run_publisher` (src/src/lib.rs:77-86): each
message's publish result is mapped through `MqttPublishError`, and the
`try_for_each` aborts at the first failure. -/
def publishAll : List (Except PahoError Unit) → Except MqttVerifyError Unit
  | [] => Except.ok ()
  | Except.ok _ :: rest => publishAll rest
  | Except.error _ :: _ => Except.error MqttVerifyError.mqttPublishError

/-- `run_publisher` (src/src/lib.rs:74-93): connect, publish pump,
disconnect; each stage aborts the runner through `?`. -/
def run_publisher (connectRes : Except MqttVerifyError Unit)
    (publishResults : List (Except PahoError Unit))
    (disconnectRes : Except MqttVerifyError Unit) : Except MqttVerifyError Unit :=
  match connectRes with
  | Except.error e => Except.error e
  | Except.ok _ =>
      match publishAll publishResults with
      | Except.error e => Except.error e
      | Except.ok _ => disconnectRes

/-- C4 exhibit: any failed publish aborts `run_publisher` with
`MqttPublishError`, whatever came before or after it — the runner has no
reconnect mode in which the failure would be swallowed. -/
theorem claim_c4_publish_failure_always_aborts (oks : List Unit) (e : PahoError)
    (post : List (Except PahoError Unit))
    (disconnectRes : Except MqttVerifyError Unit) :
    run_publisher (Except.ok ())
        ((oks.map (fun _ => Except.ok ())) ++ Except.error e :: post)
        disconnectRes =
      Except.error MqttVerifyError.mqttPublishError := by
  induction oks with
  | nil => rfl
  | cons u oks ih =>
      simpa [run_publisher, publishAll] using ih

/-! ## Subscriber runner (src/src/lib.rs, `run_subscriber`) -/

/-- How the subscriber's message loop ended. -/
inductive DrainOutcome : Type where
  | done
  | streamEnded
  | failed (e : MqttVerifyError)
deriving DecidableEq

/-- The message loop of `run_subscriber` (src/src/lib.rs:109-116):
`while let Some(message) = messages.next()` with an inner
`if let Some(message)` that skips the sentinel empties; the analyzer's
`Continue` keeps the loop going, `Done` breaks, and an analyzer error is
returned through `?`. -/
def drainMessages {σ : Type}
    (analyze : σ → MqttMessage → σ × Except MqttVerifyError AnalyzerState)
    (s : σ) : List (Option MqttMessage) → σ × DrainOutcome
  | [] => (s, DrainOutcome.streamEnded)
  | none :: rest => drainMessages analyze s rest
  | some m :: rest =>
      match analyze s m with
      | (s2, Except.ok AnalyzerState.Continue) => drainMessages analyze s2 rest
      | (s2, Except.ok AnalyzerState.Done) => (s2, DrainOutcome.done)
      | (s2, Except.error e) => (s2, DrainOutcome.failed e)

/-- Reference loop: the analyzer fed only the real messages (used to state
that the sentinel empties are skipped without touching the analyzer). -/
def feedAnalyzer {σ : Type}
    (analyze : σ → MqttMessage → σ × Except MqttVerifyError AnalyzerState)
    (s : σ) : List MqttMessage → σ × DrainOutcome
  | [] => (s, DrainOutcome.streamEnded)
  | m :: rest =>
      match analyze s m with
      | (s2, Except.ok AnalyzerState.Continue) => feedAnalyzer analyze s2 rest
      | (s2, Except.ok AnalyzerState.Done) => (s2, DrainOutcome.done)
      | (s2, Except.error e) => (s2, DrainOutcome.failed e)

/-- `run_subscriber` (src/src/lib.rs:95-122) around the message loop:
connect errors and analyzer errors propagate through `?`; otherwise the
runner proceeds to disconnect and returns the disconnect result. -/
def run_subscriber {σ : Type} (connectRes : Except MqttVerifyError Unit)
    (analyze : σ → MqttMessage → σ × Except MqttVerifyError AnalyzerState)
    (s : σ) (stream : List (Option MqttMessage))
    (disconnectRes : Except MqttVerifyError Unit) : Except MqttVerifyError Unit :=
  match connectRes with
  | Except.error e => Except.error e
  | Except.ok _ =>
      match drainMessages analyze s stream with
      | (_, DrainOutcome.failed e) => Except.error e
      | _ => disconnectRes

/-- C9: the subscriber loop consumes items one at a time and skips the
sentinel empties without invoking the analyzer (it behaves exactly as the
analyzer fed the real messages only); `Continue` keeps consuming, `Done`
stops the loop cleanly and the runner proceeds to disconnect, and an
analyzer failure is returned as the runner's error. -/
theorem claim_c9_run_subscriber {σ : Type}
    (analyze : σ → MqttMessage → σ × Except MqttVerifyError AnalyzerState)
    (s : σ) (stream : List (Option MqttMessage)) :
    (drainMessages analyze s stream =
        feedAnalyzer analyze s (stream.filterMap id))
    ∧ (∀ m rest s2, analyze s m = (s2, Except.ok AnalyzerState.Continue) →
        drainMessages analyze s (some m :: rest) = drainMessages analyze s2 rest)
    ∧ (∀ m rest s2 d, analyze s m = (s2, Except.ok AnalyzerState.Done) →
        drainMessages analyze s (some m :: rest) = (s2, DrainOutcome.done)
        ∧ run_subscriber (Except.ok ()) analyze s (some m :: rest) d = d)
    ∧ (∀ m rest s2 e d, analyze s m = (s2, Except.error e) →
        run_subscriber (Except.ok ()) analyze s (some m :: rest) d =
          Except.error e) := by
  refine ⟨?_, ?_, ?_, ?_⟩
  · induction stream generalizing s with
    | nil => rfl
    | cons o rest ih =>
        cases o with
        | none => simpa [drainMessages] using ih s
        | some m =>
            simp only [drainMessages, List.filterMap_cons, id_eq, feedAnalyzer]
            cases h : analyze s m with
            | mk s2 r =>
                cases r with
                | ok v => cases v <;> simp [ih]
                | error e => rfl
  · intro m rest s2 h
    simp [drainMessages, h]
  · intro m rest s2 d h
    constructor
    · simp [drainMessages, h]
    · simp [run_subscriber, drainMessages, h]
  · intro m rest s2 e d h
    simp [run_subscriber, drainMessages, h]

/-- C9 witness: a `CountingAnalyzer(0)` fails its first real message (one
sentinel empty skipped before it) and `run_subscriber` returns that
`VerificationFailure`. -/
theorem claim_c9_run_subscriber_witness :
    run_subscriber (Except.ok ()) CountingAnalyzer.analyze (CountingAnalyzer.new 0)
      [none, some { topic := "t", payload := "x", qos := 0 }] (Except.ok ()) =
      Except.error (MqttVerifyError.verificationFailure "Expected only 0 messages") := by
  have h := (claim_c9_run_subscriber CountingAnalyzer.analyze (CountingAnalyzer.new 0)
    []).2.2.2 { topic := "t", payload := "x", qos := 0 } []
    { count := 1, expected_total := 0 }
    (MqttVerifyError.verificationFailure "Expected only 0 messages")
    (Except.ok ()) rfl
  simpa [run_subscriber, drainMessages] using h

/-! ## Expansion context (src/src/context.rs, `OverlayContext`) -/

/-- One `OverlayContext` node: the optional parent `Rc` reference is
modelled as an index into the store of allocated scopes, and the
`HashMap<String, Value>` of own bindings as an association list whose
insert prepends (same lookup semantics; the values in play are the
`Value::String` variant). -/
structure ScopeNode : Type where
  parent : Option Nat
  vars : List (String × String)
deriving DecidableEq

/-- `OverlayContext::root()`: allocate a fresh parentless scope; returns
the new store and the index of the new scope. -/
def OverlayContext.root (store : List ScopeNode) : List ScopeNode × Nat :=
  (store ++ [{ parent := none, vars := [] }], store.length)

/-- `OverlayContext::subcontext(parent)`: allocate a fresh empty scope
holding a reference to its parent. -/
def OverlayContext.subcontext (store : List ScopeNode) (parent : Nat) :
    List ScopeNode × Nat :=
  (store ++ [{ parent := some parent, vars := [] }], store.length)

/-- `OverlayContext::insert`: update the scope's own map only. -/
def OverlayContext.insert (store : List ScopeNode) (i : Nat) (key v : String) :
    List ScopeNode :=
  match store[i]? with
  | none => store
  | some node => store.set i { node with vars := (key, v) :: node.vars }

/-- `OverlayContext::get_value` (src/src/context.rs:82-91): own map first,
then the parent chain, else not found.  `Rc` graphs are acyclic and
children are always allocated after their parents (`root`/`subcontext`),
so parents have smaller indices; the `p < i` guard is always true on such
stores and only serves termination on ill-formed ones. -/
def OverlayContext.get_value (store : List ScopeNode) (i : Nat) (key : String) :
    Option String :=
  match store[i]? with
  | none => none
  | some node =>
      match node.vars.lookup key with
      | some v => some v
      | none =>
          match node.parent with
          | none => none
          | some p => if p < i then OverlayContext.get_value store p key else none
termination_by i

/-- Well-formedness of a scope store: every parent reference points
strictly below its child, which is how `root`/`subcontext` allocate. -/
def wfStore (store : List ScopeNode) : Bool :=
  store.enum.all fun pair => pair.2.parent.all fun p => decide (p < pair.1)

theorem wfStore_parent_lt {store : List ScopeNode} (hwf : wfStore store = true)
    {i : Nat} {node : ScopeNode} {p : Nat}
    (hnode : store[i]? = some node) (hp : node.parent = some p) : p < i := by
  have henum : store.enum[i]? = some (i, node) := by
    simp [List.getElem?_enum, hnode]
  have hmem : (i, node) ∈ store.enum := List.getElem?_mem henum
  have := (List.all_eq_true.mp hwf) (i, node) hmem
  rw [hp] at this
  simpa using this

theorem OverlayContext.get_value_eq (store : List ScopeNode) (i : Nat)
    (key : String) :
    OverlayContext.get_value store i key =
      match store[i]? with
      | none => none
      | some node =>
          match node.vars.lookup key with
          | some v => some v
          | none =>
              match node.parent with
              | none => none
              | some p =>
                  if p < i then OverlayContext.get_value store p key else none := by
  rw [OverlayContext.get_value]

/-- Whether the parent chain starting at scope `j` avoids scope `c`
entirely (computed on the original store; `insert` never changes parent
links, so the chains of both stores coincide). -/
def chainAvoids (store : List ScopeNode) (j c : Nat) : Bool :=
  if j = c then false
  else
    match store[j]? with
    | none => true
    | some node =>
        match node.parent with
        | none => true
        | some p => if p < j then chainAvoids store p c else true
termination_by j

theorem chainAvoids_eq (store : List ScopeNode) (j c : Nat) :
    chainAvoids store j c =
      if j = c then false
      else
        match store[j]? with
        | none => true
        | some node =>
            match node.parent with
            | none => true
            | some p => if p < j then chainAvoids store p c else true := by
  rw [chainAvoids]

theorem chainAvoids_ne {store : List ScopeNode} {j c : Nat}
    (h : chainAvoids store j c = true) : j ≠ c := by
  intro hjc
  rw [chainAvoids_eq, if_pos hjc] at h
  exact absurd h (by simp)

/-- Every scope strictly below `c` trivially avoids `c`: parent chains
only descend. -/
theorem chainAvoids_of_lt (store : List ScopeNode) :
    ∀ j c : Nat, j < c → chainAvoids store j c = true := by
  intro j
  induction j using Nat.strong_induction_on with
  | _ j ih =>
      intro c hjc
      rw [chainAvoids_eq, if_neg (by omega)]
      cases hn : store[j]? with
      | none => rfl
      | some node =>
          dsimp only
          cases hp : node.parent with
          | none => rfl
          | some p =>
              dsimp only
              by_cases hpj : p < j
              · rw [if_pos hpj]
                exact ih p hpj c (by omega)
              · rw [if_neg hpj]

/-- An `insert` into scope `c` leaves every lookup whose parent chain
avoids `c` unchanged. -/
theorem get_value_insert_of_chainAvoids (store : List ScopeNode)
    (c : Nat) (k v : String) :
    ∀ j, chainAvoids store j c = true →
      ∀ key, OverlayContext.get_value (OverlayContext.insert store c k v) j key =
        OverlayContext.get_value store j key := by
  intro j
  induction j using Nat.strong_induction_on with
  | _ j ih =>
      intro havoid key
      have hjc : j ≠ c := chainAvoids_ne havoid
      have hsame : (OverlayContext.insert store c k v)[j]? = store[j]? := by
        rw [OverlayContext.insert]
        cases hcc : store[c]? with
        | none => rfl
        | some node => exact List.getElem?_set_ne (by omega)
      rw [OverlayContext.get_value_eq, OverlayContext.get_value_eq store, hsame]
      cases hn : store[j]? with
      | none => rfl
      | some node =>
          dsimp only
          cases hl : node.vars.lookup key with
          | some w => rfl
          | none =>
              dsimp only
              cases hp : node.parent with
              | none => rfl
              | some p =>
                  dsimp only
                  by_cases hpj : p < j
                  · rw [if_pos hpj, if_pos hpj]
                    apply ih p hpj
                    rw [chainAvoids_eq, if_neg hjc, hn] at havoid
                    dsimp only at havoid
                    rw [hp] at havoid
                    dsimp only at havoid
                    rw [if_pos hpj] at havoid
                    exact havoid
                  · rw [if_neg hpj, if_neg hpj]

/-- C7: in a well-formed scope tree, lookup on a child scope prefers the
child's own binding and otherwise defers to its parent (a parentless root
answers only from its own map); and inserting into one scope never
changes any lookup on its parent or on a sibling scope. -/
theorem claim_c7_overlay_context (store : List ScopeNode) (c : Nat)
    (node : ScopeNode) (p : Nat)
    (hwf : wfStore store = true)
    (hc : store[c]? = some node) (hp : node.parent = some p) :
    (∀ key, OverlayContext.get_value store c key =
        match node.vars.lookup key with
        | some v => some v
        | none => OverlayContext.get_value store p key)
    ∧ (∀ rootIdx rnode key, store[rootIdx]? = some rnode → rnode.parent = none →
        OverlayContext.get_value store rootIdx key = rnode.vars.lookup key)
    ∧ (∀ k v key,
        OverlayContext.get_value (OverlayContext.insert store c k v) p key =
          OverlayContext.get_value store p key)
    ∧ (∀ sib node2, sib ≠ c → store[sib]? = some node2 → node2.parent = some p →
        ∀ k v key,
          OverlayContext.get_value (OverlayContext.insert store c k v) sib key =
            OverlayContext.get_value store sib key) := by
  have hpc : p < c := wfStore_parent_lt hwf hc hp
  refine ⟨?_, ?_, ?_, ?_⟩
  · intro key
    rw [OverlayContext.get_value_eq, hc]
    dsimp only
    cases hl : node.vars.lookup key with
    | some w => rfl
    | none =>
        dsimp only
        rw [hp]
        dsimp only
        rw [if_pos hpc]
  · intro rootIdx rnode key hr hrp
    rw [OverlayContext.get_value_eq, hr]
    dsimp only
    cases hl : rnode.vars.lookup key with
    | some w => rfl
    | none =>
        dsimp only
        rw [hrp]
  · intro k v key
    exact get_value_insert_of_chainAvoids store c k v p
      (chainAvoids_of_lt store p c hpc) key
  · intro sib node2 hne hsib hp2 k v key
    apply get_value_insert_of_chainAvoids
    have hpsib : p < sib := wfStore_parent_lt hwf hsib hp2
    rw [chainAvoids_eq, if_neg hne, hsib]
    dsimp only
    rw [hp2]
    dsimp only
    rw [if_pos hpsib]
    exact chainAvoids_of_lt store p c hpc

/-- C7 witness: the store of the `overlay_context` unit test — a root
binding `foo ↦ gazonk` with two children, `child1` shadowing `foo ↦ bar`;
`child1` sees its own binding, `child2` sees the root's, and an insert
into `child1` does not change what the root or `child2` see. -/
theorem claim_c7_overlay_context_witness :
    (OverlayContext.get_value
        [{ parent := none, vars := [("foo", "gazonk")] },
         { parent := some 0, vars := [("foo", "bar")] },
         { parent := some 0, vars := [] }] 1 "foo" = some "bar")
    ∧ (OverlayContext.get_value
        (OverlayContext.insert
          [{ parent := none, vars := [("foo", "gazonk")] },
           { parent := some 0, vars := [("foo", "bar")] },
           { parent := some 0, vars := [] }] 1 "bar" "baz") 2 "foo" =
        OverlayContext.get_value
          [{ parent := none, vars := [("foo", "gazonk")] },
           { parent := some 0, vars := [("foo", "bar")] },
           { parent := some 0, vars := [] }] 2 "foo")
    ∧ (OverlayContext.get_value
        [{ parent := none, vars := [("foo", "gazonk")] },
         { parent := some 0, vars := [("foo", "bar")] },
         { parent := some 0, vars := [] }] 2 "foo" = some "gazonk") := by
  have h := claim_c7_overlay_context
    [{ parent := none, vars := [("foo", "gazonk")] },
     { parent := some 0, vars := [("foo", "bar")] },
     { parent := some 0, vars := [] }] 1
    { parent := some 0, vars := [("foo", "bar")] } 0
    (by decide) (by decide) rfl
  refine ⟨?_, ?_, ?_⟩
  · rw [h.1 "foo"]
    rfl
  · exact h.2.2.2 2 { parent := some 0, vars := [] }
      (by decide) (by decide) rfl "bar" "baz" "foo"
  · rw [OverlayContext.get_value_eq]
    show OverlayContext.get_value
        [{ parent := none, vars := [("foo", "gazonk")] },
         { parent := some 0, vars := [("foo", "bar")] },
         { parent := some 0, vars := [] }] 0 "foo" = some "gazonk"
    rw [OverlayContext.get_value_eq]
    rfl

/-! ## Template precompilation (src/src/context.rs, `precompile`)

Rust strings are modelled as `List Char` (the templates in play are
ASCII, so byte offsets and character offsets agree). -/

/-- Does the pattern `"\x7b\x7b"` occur at position `i`? -/
def isOpenAt (t : List Char) (i : Nat) : Bool :=
  decide (t[i]? = some '\x7b') && decide (t[i + 1]? = some '\x7b')

/-- Does the pattern `"\x7d\x7d"` occur at position `i`? -/
def isCloseAt (t : List Char) (i : Nat) : Bool :=
  decide (t[i]? = some '\x7d') && decide (t[i + 1]? = some '\x7d')

/-- `value.match_indices("\x7b\x7b")`: positions of the disjoint
left-to-right occurrences, scanning from `i`.  The fuel argument makes
the recursion structural; `t.length` fuel is always enough because the
scan advances at least one position per step. -/
def matchIndicesFuel : Nat → List Char → Nat → List Nat
  | 0, _, _ => []
  | fuel + 1, t, i =>
      if t.length ≤ i then []
      else if isOpenAt t i then i :: matchIndicesFuel fuel t (i + 2)
      else matchIndicesFuel fuel t (i + 1)

def matchIndices (t : List Char) : List Nat :=
  matchIndicesFuel t.length t 0

/-- `value[start..].find("\x7d\x7d")` as an absolute position: the first
`j ≥ i` where the close pattern occurs (fueled like `matchIndicesFuel`). -/
def findCloseFuel : Nat → List Char → Nat → Option Nat
  | 0, _, _ => none
  | fuel + 1, t, i =>
      if t.length ≤ i then none
      else if isCloseAt t i then some i
      else findCloseFuel fuel t (i + 1)

def findCloseFrom (t : List Char) (i : Nat) : Option Nat :=
  findCloseFuel (t.length - i) t i

/-- Rust slice `&t[a..b]`: `none` models the panic on a reversed range
(`a > b`) or a range past the end. -/
def sliceChars (t : List Char) (a b : Nat) : Option (List Char) :=
  if a ≤ b ∧ b ≤ t.length then some ((t.drop a).take (b - a)) else none

/-- `maybe_push_str` (src/src/context.rs:6-10): non-empty literal parts
are pushed wrapped in double quotes, with no escaping of their content. -/
def maybe_push_str (parts : List (List Char)) (part : List Char) :
    List (List Char) :=
  if part.isEmpty then parts else parts ++ [('\"' :: part) ++ ['\"']]

/-- Outcome of `precompile`'s scanning loop: the joined expression string
handed to `build_operator_tree`, the `MalformedValue` error, or the Rust
panic raised by the reversed slice `&value[stop..start]` that occurs when
an occurrence of the open pattern begins inside an already consumed hole. -/
inductive PrecompileResult : Type where
  | ok (expr : List Char)
  | err (e : MqttVerifyError)
  | sliceFault
deriving DecidableEq

/-- `parts.join("+")`. -/
def joinPlus (parts : List (List Char)) : List Char :=
  List.intercalate ['+'] parts

/-- The scanning loop of `precompile` (src/src/context.rs:12-31): for each
occurrence `start` of the open pattern, push the literal segment
`value[stop..start]`, locate the next close pattern from `start` (failing
with `MalformedValue` if there is none), push the raw hole contents
`value[start+2..close]`, and advance the cursor past the close; finally
push the trailing literal segment and join all parts with `+`. -/
def precompileLoop (t : List Char) (occs : List Nat) (stop : Nat)
    (parts : List (List Char)) : PrecompileResult :=
  match occs with
  | [] =>
      match sliceChars t stop t.length with
      | none => PrecompileResult.sliceFault
      | some tail => PrecompileResult.ok (joinPlus (maybe_push_str parts tail))
  | start :: rest =>
      match sliceChars t stop start with
      | none => PrecompileResult.sliceFault
      | some seg =>
          match findCloseFrom t start with
          | none => PrecompileResult.err
              (MqttVerifyError.malformedValue (String.mk t))
          | some close =>
              match sliceChars t (start + 2) close with
              | none => PrecompileResult.sliceFault
              | some inner =>
                  precompileLoop t rest (close + 2)
                    (maybe_push_str parts seg ++ [inner])

/-- `precompile` (src/src/context.rs:12-31) up to the hand-off to the
expression engine. -/
def precompile (t : List Char) : PrecompileResult :=
  precompileLoop t (matchIndices t) 0 []

/-! ### Expression engine

Modelled from the spec: `build_operator_tree` and
`eval_string_with_context` belong to the external `evalexpr` crate and are
not part of the repository's sources.  Per the spec, precompiled templates
are `+`-joins of double-quoted literals and bare context names, evaluated
with string-concatenation semantics; the model parses exactly that
fragment (split at top-level `+`, quotes respected; a token is a quoted
literal or an identifier) and evaluates by concatenation with identifiers
looked up in the scope. -/

/-- A token of the joined expression: a string literal or a context name. -/
inductive ExprTok : Type where
  | lit (s : List Char)
  | var (name : List Char)
deriving DecidableEq

/-- Modelled from the spec: split the expression at every `+` that is not
inside a double-quoted literal. -/
def splitPlusAux : List Char → Bool → List Char → List (List Char)
  | [], _, acc => [acc.reverse]
  | c :: rest, inQ, acc =>
      if c = '+' ∧ inQ = false then acc.reverse :: splitPlusAux rest false []
      else splitPlusAux rest (if c = '\"' then !inQ else inQ) (c :: acc)

def splitPlus (expr : List Char) : List (List Char) :=
  splitPlusAux expr false []

/-- Strip the blanks the expression engine ignores around a token. -/
def trimSpaces (t : List Char) : List Char :=
  (((t.dropWhile (fun c => c = ' ')).reverse.dropWhile (fun c => c = ' '))).reverse

def isIdentChar (c : Char) : Bool :=
  c.isAlphanum || c = '_'

/-- Modelled from the spec: a token is a double-quoted literal (no quote
inside) or a bare identifier; anything else fails to parse. -/
def parseTok (tok : List Char) : Option ExprTok :=
  let tk := trimSpaces tok
  if tk.head? = some '\"' then
    if tk.getLast? = some '\"' ∧ 2 ≤ tk.length ∧
        (tk.drop 1).dropLast.all (fun c => c ≠ '\"') then
      some (ExprTok.lit ((tk.drop 1).dropLast))
    else none
  else if tk ≠ [] ∧ tk.all isIdentChar then some (ExprTok.var tk) else none

def parseToksGo : List (List Char) → Option (List ExprTok)
  | [] => some []
  | tok :: rest =>
      match parseTok tok with
      | none => none
      | some e =>
          match parseToksGo rest with
          | none => none
          | some es => some (e :: es)

/-- Modelled from the spec: `build_operator_tree` on the joined
expression, reduced to the token list of the fragment in play. -/
def parseToks (expr : List Char) : Option (List ExprTok) :=
  parseToksGo (splitPlus expr)

def evalTok (ctx : List (List Char × List Char)) : ExprTok → Option (List Char)
  | ExprTok.lit s => some s
  | ExprTok.var n => ctx.lookup n

def evalToksGo (ctx : List (List Char × List Char)) (acc : List Char) :
    List ExprTok → Option (List Char)
  | [] => some acc
  | tok :: rest =>
      match evalTok ctx tok with
      | none => none
      | some s => evalToksGo ctx (acc ++ s) rest

/-- Modelled from the spec: string evaluation of the parsed expression by
concatenation; an empty expression has no string value (the engine yields
an empty value that fails string conversion), and an unbound name fails. -/
def evalToks (ctx : List (List Char × List Char)) :
    List ExprTok → Option (List Char)
  | [] => none
  | tok :: rest =>
      match evalTok ctx tok with
      | none => none
      | some s => evalToksGo ctx s rest

/-- End-to-end outcome of `OverlayContext::value_for` +
`ContextualValue::value` on a template: the evaluated string, one of the
two precompile errors, the panic of `.value()`'s `unwrap` on a failed
string evaluation, or the reversed-slice panic inside `precompile`. -/
inductive TemplateOutcome : Type where
  | ok (s : List Char)
  | malformedValue
  | malformedExpression
  | evalFault
  | sliceFault
deriving DecidableEq

def evaluateTemplate (t : List Char) (ctx : List (List Char × List Char)) :
    TemplateOutcome :=
  match precompile t with
  | PrecompileResult.sliceFault => TemplateOutcome.sliceFault
  | PrecompileResult.err (MqttVerifyError.malformedValue _) =>
      TemplateOutcome.malformedValue
  | PrecompileResult.err _ => TemplateOutcome.malformedExpression
  | PrecompileResult.ok expr =>
      match parseToks expr with
      | none => TemplateOutcome.malformedExpression
      | some toks =>
          match evalToks ctx toks with
          | none => TemplateOutcome.evalFault
          | some s => TemplateOutcome.ok s

/-- A template contains an occurrence of the open pattern with no
subsequent occurrence of the close pattern. -/
def hasUnmatchedOpen (t : List Char) : Bool :=
  (List.range t.length).any fun s =>
    isOpenAt t s &&
      !((List.range t.length).any fun j => decide (s ≤ j) && isCloseAt t j)

/-! ## Lemmas about the template scanner -/

theorem isOpenAt_lt {t : List Char} {s : Nat} (h : isOpenAt t s = true) :
    s + 1 < t.length := by
  simp only [isOpenAt, Bool.and_eq_true, decide_eq_true_eq] at h
  exact (List.getElem?_eq_some.mp h.2).1

theorem isCloseAt_lt {t : List Char} {j : Nat} (h : isCloseAt t j = true) :
    j + 1 < t.length := by
  simp only [isCloseAt, Bool.and_eq_true, decide_eq_true_eq] at h
  exact (List.getElem?_eq_some.mp h.2).1

theorem isCloseAt_eq_false_of_isOpenAt {t : List Char} {m : Nat}
    (h : isOpenAt t m = true) : isCloseAt t m = false := by
  simp only [isOpenAt, Bool.and_eq_true, decide_eq_true_eq] at h
  simp [isCloseAt, h.1]

theorem isOpenAt_eq_false_of_ge (t : List Char) (s : Nat)
    (h : t.length ≤ s) : isOpenAt t s = false := by
  have : t[s]? = none := List.getElem?_eq_none h
  simp [isOpenAt, this]

/-- A bounded scan certifies the absence of the open pattern anywhere. -/
theorem noOpenAnywhere (t : List Char)
    (h : ((List.range t.length).all fun s => !(isOpenAt t s)) = true) :
    ∀ s, isOpenAt t s = false := by
  intro s
  by_cases hs : s < t.length
  · have := List.all_eq_true.mp h s (List.mem_range.mpr hs)
    simpa using this
  · exact isOpenAt_eq_false_of_ge t s (by omega)

theorem findCloseFuel_eq_none (t : List Char) :
    ∀ (fuel i : Nat), (∀ j, i ≤ j → isCloseAt t j = false) →
      findCloseFuel fuel t i = none := by
  intro fuel
  induction fuel with
  | zero => intro i _; rfl
  | succ fuel ih =>
      intro i h
      rw [findCloseFuel]
      by_cases hlen : t.length ≤ i
      · rw [if_pos hlen]
      · rw [if_neg hlen, h i (Nat.le_refl i)]
        simp only [Bool.false_eq_true, if_false]
        exact ih (i + 1) (fun j hj => h j (by omega))

theorem findCloseFrom_eq_none (t : List Char) (i : Nat)
    (h : ∀ j, i ≤ j → isCloseAt t j = false) : findCloseFrom t i = none :=
  findCloseFuel_eq_none t (t.length - i) i h

theorem matchIndicesFuel_isOpen (t : List Char) :
    ∀ (fuel i m : Nat), m ∈ matchIndicesFuel fuel t i → isOpenAt t m = true := by
  intro fuel
  induction fuel with
  | zero => intro i m hm; exact absurd hm (by simp [matchIndicesFuel])
  | succ fuel ih =>
      intro i m hm
      rw [matchIndicesFuel] at hm
      by_cases hlen : t.length ≤ i
      · rw [if_pos hlen] at hm
        exact absurd hm (by simp)
      · rw [if_neg hlen] at hm
        by_cases hop : isOpenAt t i
        · rw [if_pos hop] at hm
          rcases List.mem_cons.mp hm with h1 | h2
          · rw [h1]; exact hop
          · exact ih (i + 2) m h2
        · rw [if_neg hop] at hm
          exact ih (i + 1) m hm

/-- Every open-pattern occurrence is within one position of a scanned
occurrence (the disjoint scan can skip at most the second brace of a
previous occurrence). -/
theorem matchIndicesFuel_cover (t : List Char) {s : Nat}
    (hopen : isOpenAt t s = true) :
    ∀ (fuel i : Nat), t.length ≤ i + fuel → i ≤ s →
      ∃ m ∈ matchIndicesFuel fuel t i, m ≤ s ∧ s ≤ m + 1 := by
  intro fuel
  induction fuel with
  | zero =>
      intro i hfl his
      have := isOpenAt_lt hopen
      omega
  | succ fuel ih =>
      intro i hfl his
      rw [matchIndicesFuel]
      by_cases hlen : t.length ≤ i
      · have := isOpenAt_lt hopen
        omega
      · rw [if_neg hlen]
        by_cases hop : isOpenAt t i
        · rw [if_pos hop]
          by_cases hsi : s ≤ i + 1
          · exact ⟨i, List.mem_cons_self i _, his, hsi⟩
          · obtain ⟨m, hm, hms, hsm⟩ := ih (i + 2) (by omega) (by omega)
            exact ⟨m, List.mem_cons_of_mem i hm, hms, hsm⟩
        · rw [if_neg hop]
          have hne : i ≠ s := by
            intro h
            rw [h] at hop
            exact hop hopen
          exact ih (i + 1) (by omega) (by omega)

theorem matchIndicesFuel_eq_nil (t : List Char)
    (hno : ∀ s, isOpenAt t s = false) :
    ∀ (fuel i : Nat), matchIndicesFuel fuel t i = [] := by
  intro fuel
  induction fuel with
  | zero => intro i; rfl
  | succ fuel ih =>
      intro i
      rw [matchIndicesFuel]
      by_cases hlen : t.length ≤ i
      · rw [if_pos hlen]
      · rw [if_neg hlen, hno i]
        simp only [Bool.false_eq_true, if_false]
        exact ih (i + 1)

/-- If some occurrence handed to the loop has no subsequent close
pattern, the loop cannot succeed: it fails with `MalformedValue`, or
panics earlier on a reversed slice. -/
theorem precompileLoop_err (t : List Char) :
    ∀ (occs : List Nat) (stop : Nat) (parts : List (List Char)) (m : Nat),
      m ∈ occs → (∀ j, m ≤ j → isCloseAt t j = false) →
      precompileLoop t occs stop parts =
          PrecompileResult.err (MqttVerifyError.malformedValue (String.mk t))
        ∨ precompileLoop t occs stop parts = PrecompileResult.sliceFault := by
  intro occs
  induction occs with
  | nil => intro _ _ m hm; exact absurd hm (by simp)
  | cons start rest ih =>
      intro stop parts m hm hnc
      cases hs : sliceChars t stop start with
      | none =>
          right
          simp [precompileLoop, hs]
      | some seg =>
          cases hfc : findCloseFrom t start with
          | none =>
              left
              simp [precompileLoop, hs, hfc]
          | some close =>
              have hm2 : m ∈ rest := by
                rcases List.mem_cons.mp hm with h1 | h2
                · subst h1
                  rw [findCloseFrom_eq_none t m hnc] at hfc
                  exact absurd hfc (by simp)
                · exact h2
              cases hsi : sliceChars t (start + 2) close with
              | none =>
                  right
                  simp [precompileLoop, hs, hfc, hsi]
              | some inner =>
                  have := ih (close + 2) (maybe_push_str parts seg ++ [inner])
                    m hm2 hnc
                  simpa [precompileLoop, hs, hfc, hsi] using this

/-- C8 (amended): evaluating `precompile("foo{{a+b}}bar")` in a scope
binding `a ↦ "X"` and `b ↦ "Y"` returns `"fooXYbar"`; and `precompile`
never succeeds on a template containing a `"{{"` with no subsequent
`"}}"` — it fails with `MalformedValue`, except that when a `"{{"`
occurrence begins inside an already consumed hole the reversed slice
`&value[stop..start]` panics instead of returning the error. -/
theorem claim_c8_template_roundtrip :
    (evaluateTemplate "foo\x7b\x7ba+b\x7d\x7dbar".data
        [("a".data, "X".data), ("b".data, "Y".data)] =
      TemplateOutcome.ok "fooXYbar".data)
    ∧ (∀ t, hasUnmatchedOpen t = true →
        precompile t = PrecompileResult.err
            (MqttVerifyError.malformedValue (String.mk t))
        ∨ precompile t = PrecompileResult.sliceFault) := by
  constructor
  · decide
  · intro t ht
    simp only [hasUnmatchedOpen, List.any_eq_true, List.mem_range,
      Bool.and_eq_true, Bool.not_eq_true', List.any_eq_false,
      decide_eq_true_eq] at ht
    obtain ⟨s, hslt, hopen, hnocr⟩ := ht
    have hnoclose : ∀ j, s ≤ j → isCloseAt t j = false := by
      intro j hj
      by_cases hjlt : j < t.length
      · have h2 := hnocr j hjlt
        cases hc : isCloseAt t j with
        | false => rfl
        | true => exact absurd ⟨hj, hc⟩ h2
      · cases hc : isCloseAt t j with
        | false => rfl
        | true => exact absurd (isCloseAt_lt hc) (by omega)
    obtain ⟨m, hm, hms, hsm⟩ :=
      matchIndicesFuel_cover t hopen t.length 0 (by omega) (by omega)
    have hmopen : isOpenAt t m = true := matchIndicesFuel_isOpen t _ 0 m hm
    have hnoclose_m : ∀ j, m ≤ j → isCloseAt t j = false := by
      intro j hj
      by_cases hjs : s ≤ j
      · exact hnoclose j hjs
      · have : j = m := by omega
        rw [this]
        exact isCloseAt_eq_false_of_isOpenAt hmopen
    exact precompileLoop_err t (matchIndices t) 0 [] m hm hnoclose_m

/-- C8 witness: `"foo{{unterminated"` has an unmatched `"{{"` and
`precompile` indeed fails on it (concretely with `MalformedValue`). -/
theorem claim_c8_template_roundtrip_witness :
    hasUnmatchedOpen "foo\x7b\x7bunterminated".data = true
    ∧ (precompile "foo\x7b\x7bunterminated".data = PrecompileResult.err
          (MqttVerifyError.malformedValue
            (String.mk "foo\x7b\x7bunterminated".data))
        ∨ precompile "foo\x7b\x7bunterminated".data =
          PrecompileResult.sliceFault) :=
  ⟨by decide, claim_c8_template_roundtrip.2 "foo\x7b\x7bunterminated".data
    (by decide)⟩

/-- C8 counterexample: `"{{a{{b}}c{{"` contains a `"{{"` (at position 9)
with no subsequent `"}}"`, yet `precompile` does not fail with
`MalformedValue`: it panics on the reversed slice `&value[8..3]` first. -/
theorem claim_c8_counterexample :
    hasUnmatchedOpen "\x7b\x7ba\x7b\x7bb\x7d\x7dc\x7b\x7b".data = true
    ∧ precompile "\x7b\x7ba\x7b\x7bb\x7d\x7dc\x7b\x7b".data =
        PrecompileResult.sliceFault
    ∧ precompile "\x7b\x7ba\x7b\x7bb\x7d\x7dc\x7b\x7b".data ≠
        PrecompileResult.err (MqttVerifyError.malformedValue
          (String.mk "\x7b\x7ba\x7b\x7bb\x7d\x7dc\x7b\x7b".data)) :=
  ⟨by decide, by decide, by decide⟩

/-! ## Lemmas about the modelled expression engine -/

theorem splitPlusAux_quoted (u : List Char) (hq : ∀ c ∈ u, c ≠ '\"') :
    ∀ acc, splitPlusAux (u ++ ['\"']) true acc = [acc.reverse ++ u ++ ['\"']] := by
  induction u with
  | nil =>
      intro acc
      simp [splitPlusAux]
  | cons c u ih =>
      intro acc
      have hc : c ≠ '\"' := hq c (by simp)
      have hq2 : ∀ d ∈ u, d ≠ '\"' := fun d hd => hq d (by simp [hd])
      rw [List.cons_append, splitPlusAux]
      rw [if_neg (by simp), if_neg hc]
      rw [ih hq2 (c :: acc)]
      simp

theorem splitPlus_quoted (u : List Char) (hq : ∀ c ∈ u, c ≠ '\"') :
    splitPlus ('\"' :: (u ++ ['\"'])) = ['\"' :: (u ++ ['\"'])] := by
  rw [splitPlus, splitPlusAux]
  rw [if_neg (by simp), if_pos rfl]
  simp only [Bool.not_false]
  rw [splitPlusAux_quoted u hq ['\"']]
  simp

theorem trimSpaces_quoted (u : List Char) :
    trimSpaces ('\"' :: (u ++ ['\"'])) = '\"' :: (u ++ ['\"']) := by
  rw [trimSpaces]
  rw [List.dropWhile_cons, if_neg (by decide)]
  rw [show ('\"' :: (u ++ ['\"'])).reverse = '\"' :: ('\"' :: u).reverse by simp]
  rw [List.dropWhile_cons, if_neg (by decide)]
  simp

theorem parseTok_quoted (u : List Char) (hq : ∀ c ∈ u, c ≠ '\"') :
    parseTok ('\"' :: (u ++ ['\"'])) = some (ExprTok.lit u) := by
  have hlast : ('\"' :: (u ++ ['\"'])).getLast? = some '\"' := by
    rw [show '\"' :: (u ++ ['\"']) = ('\"' :: u) ++ ['\"'] from rfl]
    exact List.getLast?_concat _
  have hdrop : (('\"' :: (u ++ ['\"'])).drop 1).dropLast = u := by
    rw [show ('\"' :: (u ++ ['\"'])).drop 1 = u ++ ['\"'] from rfl]
    exact List.dropLast_concat ..
  simp only [parseTok, trimSpaces_quoted]
  rw [if_pos (by simp)]
  rw [if_pos ⟨hlast, by simp, by
    rw [hdrop]
    exact List.all_eq_true.mpr (fun c hc => by simpa using hq c hc)⟩]
  rw [hdrop]

theorem precompile_of_no_open (t : List Char) (hne : t ≠ [])
    (hno : ∀ s, isOpenAt t s = false) :
    precompile t = PrecompileResult.ok ('\"' :: (t ++ ['\"'])) := by
  rw [precompile, show matchIndices t = [] from matchIndicesFuel_eq_nil t hno _ _]
  have hslice : sliceChars t 0 t.length = some t := by simp [sliceChars]
  have hmp : maybe_push_str [] t = [('\"' :: t) ++ ['\"']] := by
    rw [maybe_push_str, if_neg (by simpa [List.isEmpty_iff] using hne)]
    rfl
  simp only [precompileLoop, hslice, hmp]
  simp [joinPlus, List.intercalate]

/-- C10 (amended): `precompile` wraps every non-empty literal segment in
double quotes without escaping its characters (and drops empty segments);
consequently every NON-EMPTY template with no `"{{"` hole and no
double-quote or backslash characters evaluates, in any scope, to the
template text itself, verbatim. -/
theorem claim_c10_literal_passthrough :
    (∀ parts part,
      (part ≠ [] →
        maybe_push_str parts part = parts ++ [('\"' :: part) ++ ['\"']])
      ∧ (part = [] → maybe_push_str parts part = parts))
    ∧ (∀ t ctx, t ≠ [] → (∀ s, isOpenAt t s = false) →
        '\"' ∉ t → '\\' ∉ t →
        evaluateTemplate t ctx = TemplateOutcome.ok t) := by
  constructor
  · intro parts part
    constructor
    · intro h
      rw [maybe_push_str, if_neg (by simpa [List.isEmpty_iff] using h)]
    · intro h
      subst h
      rfl
  · intro t ctx hne hno hq hb
    have hq2 : ∀ c ∈ t, c ≠ '\"' := fun c hc => by
      intro h
      exact hq (h ▸ hc)
    have hparse : parseToks ('\"' :: (t ++ ['\"'])) = some [ExprTok.lit t] := by
      rw [parseToks, splitPlus_quoted t hq2]
      simp only [parseToksGo, parseTok_quoted t hq2]
    have heval : evalToks ctx [ExprTok.lit t] = some t := rfl
    simp only [evaluateTemplate, precompile_of_no_open t hne hno, hparse, heval]

/-- C10 counterexample: the empty template satisfies every side condition
of the claim (no hole, no quote, no backslash) but does not evaluate to
itself — the empty precompiled expression has no string value, so
`ContextualValue::value`'s `unwrap` cannot return `""`. -/
theorem claim_c10_counterexample :
    (∀ s, isOpenAt ([] : List Char) s = false)
    ∧ '\"' ∉ ([] : List Char) ∧ '\\' ∉ ([] : List Char)
    ∧ evaluateTemplate ([] : List Char) [] ≠
        TemplateOutcome.ok ([] : List Char) := by
  refine ⟨fun s => rfl, by simp, by simp, by decide⟩

/-- C10 witness: the literal template `"a+b"` (no hole, `+` is literal
text) round-trips verbatim through precompile and evaluation. -/
theorem claim_c10_literal_passthrough_witness :
    evaluateTemplate "a+b".data [] = TemplateOutcome.ok "a+b".data :=
  claim_c10_literal_passthrough.2 "a+b".data [] (by decide)
    (noOpenAnywhere "a+b".data (by decide)) (by decide) (by decide)
